import Mathlib

/-!
Shallow embedding of `pkg/stanza/fileconsumer/internal/reader/reader.go`
from opentelemetry-collector-contrib.

The Reader orchestrates one file's read cycle: source selection
(raw / gzip / auto), an optional header phase, and the content phase that
scans tokens, decodes them, accumulates them into bounded batches and
flushes batches to the sink (`emitFunc`).

External collaborators are represented by their observable behaviour at the
interface the Reader consumes:
* the scanner (`scanner.New`, `s.Scan`, `s.Bytes`, `s.Pos`) is a stream of
  successful scan events (token bytes plus the position after the token),
  followed by a terminal failed `Scan` whose `s.Error()` is nil (clean end
  of file) or not (`scanErr`); `s.Pos()` does not advance on the failed scan;
* the decoder (`decoder.Bytes` / `textutils.DecodeAsString`) is a function
  returning the decoded bytes together with a success flag, mirroring Go's
  `(value, err)` multi-return;
* the sink (`emitFunc`) may succeed or fail per call (`emitOk`, indexed by
  the number of calls made so far); each invocation is recorded in a trace;
* `ctx.Done()` is a predicate on the loop-iteration counter;
* file-system effects (seek targets, deletion, the open handle) are tracked
  as explicit state.

Byte strings are `List Nat`, file positions are `Int` (Go `int64`).
Go slice index assignment is modelled by `setChecked`, which fails (`none`,
a runtime panic) when the index is out of range.
-/

/-- One successful `s.Scan()` of the stanza scanner: the token bytes
returned by `s.Bytes()` and the scanner position `s.Pos()` immediately
after the token. -/
structure ScanEvent where
  bytes : List Nat
  pos : Int
deriving DecidableEq

/-- The `FileAttributes` map (`map[string]any`), modelled as an association
list of byte-string keys and values. -/
abbrev AttrMap := List (List Nat × List Nat)

/-- Trace record of one `r.emitFunc(ctx, tokenBodies[:n], r.FileAttributes,
r.RecordNum, tokenOffsets)` invocation.  `ok` is whether the callback
returned nil.  `offsetAtCall` is `r.Offset` as the call is made,
`posAtCall` is `s.Pos()` at that moment; `windowStart` and `batchPos` are
ghost observations: the scanner position when the current batch window
began (initially `r.Offset`, reset at each full-batch flush) and the
positions after each scan event whose token was batched. -/
structure EmitCall where
  tokenBodies : List (List Nat)
  attrs : AttrMap
  recordNum : Int
  tokenOffsets : List Int
  ok : Bool
  offsetAtCall : Int
  posAtCall : Int
  windowStart : Int
  batchPos : List Int
deriving DecidableEq

/-- The Reader's mutable state: the durable `Metadata` fields (`Offset`,
`RecordNum`, `Fingerprint`, `HeaderFinalized`, `FileAttributes`) together
with the handle state (`fileOpen` for `r.file != nil`, `headerActive` for
`r.headerReader != nil`, `needsUpdateFP` for `r.needsUpdateFingerprint`)
and traces of the observable effects (emit calls, seek targets, tokens
handed to the header sub-pipeline, deletion). -/
structure RdrState where
  offset : Int
  recordNum : Int
  fingerprint : List Nat
  headerFinalized : Bool
  headerActive : Bool
  attrs : AttrMap
  fileOpen : Bool
  needsUpdateFP : Bool
  emits : List EmitCall
  seeks : List Int
  headerTokens : List (List Nat)
  deleted : Bool
deriving DecidableEq

/-- Go slice index assignment `l[i] = a`; an out-of-range index is a
runtime panic (`none`). -/
def setChecked (l : List α) (i : Nat) (a : α) : Option (List α) :=
  if i < l.length then some (l.set i a) else none

/-- `Reader.delete` (reader.go lines 275-280): close the handle and remove
the file from disk. -/
def deleteFile (st : RdrState) : RdrState :=
  { st with fileOpen := false, deleted := true }

/-- Handling of a failed `Scan` shared by both phases: a scan error is only
logged; a clean end of file honours `deleteAtEOF` (reader.go lines
161-168 and 237-241). -/
def atEOF (scanErr deleteAtEOF : Bool) (st : RdrState) : RdrState :=
  if scanErr then st else if deleteAtEOF then deleteFile st else st

/-- Configuration and collaborator behaviour for one `readContents` call:
the decoder, the cancellation predicate (indexed by loop iteration), the
sink success oracle (indexed by number of emit calls made so far),
`r.maxBatchSize`, whether the terminal failed scan has a non-nil error,
and `r.deleteAtEOF`. -/
structure ContentCfg where
  decode : List Nat → List Nat × Bool
  cancel : Nat → Bool
  emitOk : Nat → Bool
  maxBatchSize : Nat
  scanErr : Bool
  deleteAtEOF : Bool

/-- The loop of `Reader.readContents` (reader.go lines 227-271).
`tb` and `toff` are the `tokenBodies` and `tokenOffsets` arrays, `n` is
`numTokensBatched`, `spos` is the scanner's current position `s.Pos()`,
`wstart`/`bpos` are the ghost batch-window observations recorded into each
`EmitCall`.  The body follows the source line by line: cancellation check;
failed scan (error logging / delete-at-EOF, then a final flush of any
pending batch, advancing `r.Offset` to `s.Pos()`); otherwise write the
decoded bytes into `tokenBodies[numTokensBatched]` and the position into
`tokenOffsets[numTokensBatched+1]` (both Go index assignments, which panic
out of range), skip the token on a decode error (advancing `r.Offset`),
and otherwise count the record and flush when the batch is full. -/
def readContentsLoop (cfg : ContentCfg) (k : Nat) (events : List ScanEvent)
    (tb : List (List Nat)) (toff : List Int) (n : Nat)
    (spos wstart : Int) (bpos : List Int) (st : RdrState) : Option RdrState :=
  if cfg.cancel k then some st
  else
    match events with
    | [] =>
        let st1 := atEOF cfg.scanErr cfg.deleteAtEOF st
        if 0 < n then
          let c : EmitCall :=
            ⟨tb.take n, st1.attrs, st1.recordNum, toff,
             cfg.emitOk st1.emits.length, st1.offset, spos, wstart, bpos⟩
          some { st1 with emits := st1.emits ++ [c], offset := spos }
        else some st1
    | ev :: rest =>
        let d := cfg.decode ev.bytes
        match setChecked tb n d.1 with
        | none => none
        | some tb1 =>
          match setChecked toff (n + 1) ev.pos with
          | none => none
          | some toff1 =>
            if !d.2 then
              readContentsLoop cfg (k + 1) rest tb1 toff1 n ev.pos wstart bpos
                { st with offset := ev.pos }
            else
              let st1 := { st with recordNum := st.recordNum + 1 }
              if 0 < cfg.maxBatchSize ∧ cfg.maxBatchSize ≤ n + 1 then
                let c : EmitCall :=
                  ⟨tb1.take (n + 1), st1.attrs, st1.recordNum, toff1,
                   cfg.emitOk st1.emits.length, st1.offset, ev.pos, wstart,
                   bpos ++ [ev.pos]⟩
                readContentsLoop cfg (k + 1) rest tb1 (toff1.set 0 ev.pos) 0
                  ev.pos ev.pos []
                  { st1 with emits := st1.emits ++ [c], offset := ev.pos }
              else
                readContentsLoop cfg (k + 1) rest tb1 toff1 (n + 1) ev.pos wstart
                  (bpos ++ [ev.pos]) st1

/-- `Reader.readContents` (reader.go lines 208-272).  The buffer-pool
sizing (lines 209-219) and `scanner.New` (line 220) are abstracted: the
scanner is represented by its observable stream of scan events, whose
initial position is `r.Offset`.  `tokenBodies` is allocated with length
`r.maxBatchSize`, `tokenOffsets` with length `r.maxBatchSize+1`, and
`tokenOffsets[0]` is initialised to `r.Offset` (lines 222-226). -/
def readContents (cfg : ContentCfg) (events : List ScanEvent)
    (st : RdrState) : Option RdrState :=
  readContentsLoop cfg 0 events (List.replicate cfg.maxBatchSize [])
    ((List.replicate (cfg.maxBatchSize + 1) (0 : Int)).set 0 st.offset) 0
    st.offset st.offset [] st

/-- Result of one `headerReader.Process` call: nil error, the sentinel
`header.ErrEndOfHeader`, or any other error. -/
inductive HeaderProcResult where
  | ok
  | endOfHeader
  | otherErr
deriving DecidableEq

/-- Configuration and collaborator behaviour for one `readHeader` call.
`process` is the header sub-pipeline's `Process`, which receives the
decoded token and the (mutable, by-reference) attributes map and returns
its outcome together with the possibly mutated map.  `seekOk` is the
outcome of the post-header re-seek (reader.go line 200). -/
structure HeaderCfg where
  decode : List Nat → List Nat × Bool
  cancel : Nat → Bool
  process : List Nat → AttrMap → HeaderProcResult × AttrMap
  scanErr : Bool
  deleteAtEOF : Bool
  seekOk : Bool

/-- The loop of `Reader.readHeader` (reader.go lines 146-206), returning
`doneReadingFile` and the resulting state.  On `ErrEndOfHeader` the loop
breaks before the `r.Offset = s.Pos()` of line 189, stops and discards the
sub-pipeline, latches `HeaderFinalized`, and re-seeks the raw handle to
`r.Offset`; a failed re-seek makes the whole cycle done.  Tokens handed to
`Process` are traced in `headerTokens`. -/
def readHeaderLoop (cfg : HeaderCfg) (k : Nat) (events : List ScanEvent)
    (st : RdrState) : Bool × RdrState :=
  if cfg.cancel k then (true, st)
  else
    match events with
    | [] => (true, atEOF cfg.scanErr cfg.deleteAtEOF st)
    | ev :: rest =>
        let d := cfg.decode ev.bytes
        if !d.2 then
          readHeaderLoop cfg (k + 1) rest { st with offset := ev.pos }
        else
          let pr := cfg.process d.1 st.attrs
          let st1 := { st with attrs := pr.2,
                               headerTokens := st.headerTokens ++ [d.1] }
          match pr.1 with
          | .endOfHeader =>
              let st2 := { st1 with headerActive := false,
                                    headerFinalized := true }
              let st3 := { st2 with seeks := st2.seeks ++ [st2.offset] }
              if cfg.seekOk then (false, st3) else (true, st3)
          | _ => readHeaderLoop cfg (k + 1) rest { st1 with offset := ev.pos }

/-- `Reader.readHeader` entry point. -/
def readHeader (cfg : HeaderCfg) (events : List ScanEvent)
    (st : RdrState) : Bool × RdrState :=
  readHeaderLoop cfg 0 events st

/-- Modelled from the spec: `fingerprint.Fingerprint.StartsWith` (the
fingerprint package is not part of the given sources).  Spec section 4.3:
an order-sensitive prefix digest with a prefix test — `f.StartsWith(old)`
holds when `old`'s bytes are a prefix of `f`'s. -/
def fpStartsWith (f old : List Nat) : Bool := old.isPrefixOf f

/-- Modelled from the spec: `fingerprint.NewFromFile` (the fingerprint
package is not part of the given sources).  Spec section 4.3: construct
from a live file handle by a bounded read of up to `fingerprintSize`
leading bytes of the raw file. -/
def newFromFile (contents : List Nat) (fingerprintSize : Nat) : List Nat :=
  contents.take fingerprintSize

/-- `Reader.updateFingerprint` (reader.go lines 345-358).  `refreshed` is
the result of `fingerprint.NewFromFile` on the current file (`none` for an
error).  The re-derived fingerprint is rejected while the stored one is
non-empty and is not a prefix of it. -/
def updateFingerprint (st : RdrState) (refreshed : Option (List Nat)) :
    RdrState :=
  let st1 := { st with needsUpdateFP := false }
  if !st1.fileOpen then st1
  else
    match refreshed with
    | none => st1
    | some f =>
        if 0 < st1.fingerprint.length ∧ !(fpStartsWith f st1.fingerprint) then
          st1
        else { st1 with fingerprint := f }

/-- `Reader.Validate` (reader.go lines 322-335): false on a closed handle,
otherwise re-derive a fingerprint from the current file (`contents` is the
raw file content) and report whether it starts with the stored one.  It
returns a `Bool` and touches no state. -/
def Validate (st : RdrState) (contents : List Nat)
    (fingerprintSize : Nat) : Bool :=
  if !st.fileOpen then false
  else if fpStartsWith (newFromFile contents fingerprintSize) st.fingerprint
    then true
  else false

/-- Per-cycle configuration and collaborator behaviour for `ReadToEnd`:
the advisory-lock setting and outcome, `r.compression` and `r.FileType`,
the `Stat` result inside `createGzipReader` (`none` for an error, `some s`
for an on-disk size `s`), whether `gzip.NewReader` succeeds, whether the
pre-read seek of line 103 succeeds, whether the raw reads of this cycle
observed fingerprint growth (`Reader.Read`, lines 306-316, which sets
`r.needsUpdateFingerprint`), and the `fingerprint.NewFromFile` result used
by the deferred `updateFingerprint`. -/
structure ReadCfg where
  acquireFSLock : Bool
  lockOk : Bool
  compression : String
  fileType : String
  statSize : Option Int
  gzipOk : Bool
  seekOk : Bool
  fpGrew : Bool
  fpRefreshed : Option (List Nat)

/-- Condition under which `ReadToEnd` opens a decompressing reader
(reader.go lines 73-98): compression mode `"gzip"`, or `"auto"` with the
detected file type `".gz"`. -/
def gzipSelected (rc : ReadCfg) : Bool :=
  rc.compression == "gzip" || (rc.compression == "auto" && rc.fileType == ".gz")

/-- The deferred fingerprint refresh of reader.go lines 108-112: runs only
when `r.needsUpdateFingerprint` is set (either carried in or set by this
cycle's raw reads). -/
def finishCycle (rc : ReadCfg) (st : RdrState) : RdrState :=
  if st.needsUpdateFP || rc.fpGrew then updateFingerprint st rc.fpRefreshed
  else st

/-- `ReadToEnd` from the pre-read seek of line 103 onward: the seek target
is recorded; on seek failure the call returns before the fingerprint-
refresh defer of line 108 is registered, so that defer does not run.  Then
the header phase runs when `r.headerReader != nil`, and the content phase
unless the header phase reported the cycle done. -/
def afterSource (rc : ReadCfg) (hc : HeaderCfg) (hevents : List ScanEvent)
    (cc : ContentCfg) (cevents : List ScanEvent) (st : RdrState) :
    Option RdrState :=
  let st1 := { st with seeks := st.seeks ++ [st.offset] }
  if !rc.seekOk then some st1
  else if st1.headerActive then
    let p := readHeader hc hevents st1
    if p.1 then some (finishCycle rc p.2)
    else (readContents cc cevents p.2).map (finishCycle rc)
  else (readContents cc cevents st1).map (finishCycle rc)

/-- `Reader.ReadToEnd` (reader.go lines 65-121).  A failed advisory lock
aborts the cycle.  On the gzip path (`createGzipReader`, lines 124-144) a
`Stat` failure or `gzip.NewReader` failure aborts the cycle; on success a
deferred assignment pins `r.Offset` to the captured on-disk size on exit
(running after the fingerprint-refresh defer, in LIFO order).  A panic in
the content phase (`none`) yields no resulting state. -/
def ReadToEnd (rc : ReadCfg) (hc : HeaderCfg) (hevents : List ScanEvent)
    (cc : ContentCfg) (cevents : List ScanEvent) (st : RdrState) :
    Option RdrState :=
  if rc.acquireFSLock && !rc.lockOk then some st
  else if gzipSelected rc then
    match rc.statSize with
    | none => some st
    | some s =>
        if rc.gzipOk then
          (afterSource rc hc hevents cc cevents st).map
            (fun st2 => { st2 with offset := s })
        else some st
  else afterSource rc hc hevents cc cevents st

/-- An initial reader state used by the concrete runs below: offset 0,
record count 0, empty fingerprint and attributes, open handle, no header
sub-pipeline. -/
def st0 : RdrState :=
  ⟨0, 0, [], false, false, [], true, false, [], [], [], false⟩

/-- A content configuration where every token decodes to itself, nothing
is cancelled, and every flush succeeds. -/
def plainCfg (maxB : Nat) : ContentCfg :=
  ⟨fun b => (b, true), fun _ => false, fun _ => true, maxB, false, false⟩

/-- Total number of token bodies passed to the sink over a trace of emit
calls. -/
def emitSum (l : List EmitCall) : Nat :=
  (l.map fun c => c.tokenBodies.length).sum

/-- A content configuration whose sink fails every flush (identity decoder,
no cancellation, `maxBatchSize = 1`). -/
def cfgF : ContentCfg :=
  ⟨fun b => (b, true), fun _ => false, fun _ => false, 1, false, false⟩

/-- A content configuration cancelled at the second loop iteration
(identity decoder, all flushes succeed, `maxBatchSize = 2`). -/
def cfgC : ContentCfg :=
  ⟨fun b => (b, true), fun j => j == 1, fun _ => true, 2, false, false⟩

/-- A cycle configuration on the gzip path: no advisory lock, `Stat`
reports size 5, gzip reader creation and the pre-read seek succeed, no
fingerprint refresh pending. -/
def rcG : ReadCfg :=
  ⟨false, true, "gzip", "", some 5, true, true, false, none⟩

/-- A header configuration whose sub-pipeline reports end-of-header for
every token (identity decoder, no cancellation, re-seek succeeds). -/
def hcE : HeaderCfg :=
  ⟨fun b => (b, true), fun _ => false, fun _ a => (.endOfHeader, a), false,
   false, true⟩

/-- A header configuration whose decoder fails on every token. -/
def cfgD : HeaderCfg :=
  ⟨fun b => (b, false), fun _ => false, fun _ a => (.ok, a), false, false,
   true⟩

/-- The emit call recorded by the run of `readContents (plainCfg 2)` on the
single scan event `⟨[9], 3⟩` from `st0`: a one-token final flush whose
`tokenOffsets` array keeps its allocated length 3. -/
def cRec : EmitCall := ⟨[[9]], [], 1, [0, 3, 0], true, 0, 3, 0, [3]⟩

/-- The resulting state of that same run. -/
def stRec : RdrState :=
  ⟨3, 1, [], false, false, [], true, false, [cRec], [], [], false⟩

set_option maxHeartbeats 2000000 in
/-- Claim C6: with `maxBatchSize = 2`, five available tokens, no
cancellation and no decode or scan errors, the content phase makes exactly
three flush calls with batch sizes 2, 2 and 1 in that order, and the
record count passed to the third flush call is 5. -/
theorem batch_boundary_two_five :
    (readContents (plainCfg 2)
        [⟨[1], 1⟩, ⟨[2], 2⟩, ⟨[3], 3⟩, ⟨[4], 4⟩, ⟨[5], 5⟩] st0).map
      (fun st => (st.emits.map (fun c => c.tokenBodies.length),
                  st.emits.map (fun c => c.recordNum)))
      = some ([2, 2, 1], [2, 4, 5]) := by
  rfl

/-- Setting an element at an index at or beyond `n` does not change the
first `n` elements. -/
theorem take_set_ge (l : List α) (n i : Nat) (a : α) (h : n ≤ i) :
    (l.set i a).take n = l.take n := by
  induction l generalizing n i with
  | nil => simp
  | cons x xs ih =>
      cases i with
      | zero =>
          have : n = 0 := Nat.le_zero.mp h
          simp [this]
      | succ i =>
          cases n with
          | zero => simp
          | succ n =>
              simp only [List.set, List.take]
              rw [ih n i (Nat.le_of_succ_le_succ h)]

/-- Taking one element past an in-range `set` appends the written value. -/
theorem take_succ_set (l : List α) (n : Nat) (a : α) (h : n < l.length) :
    (l.set n a).take (n + 1) = l.take n ++ [a] := by
  induction l generalizing n with
  | nil => simp at h
  | cons x xs ih =>
      cases n with
      | zero => simp
      | succ n =>
          simp only [List.set, List.take, List.cons_append]
          rw [ih n (Nat.lt_of_succ_lt_succ h)]

/-- Claim C4: while the stored fingerprint is non-empty, a fingerprint
refresh never replaces it with a value it is not a prefix of: the result
always extends the stored fingerprint, and a re-derived fingerprint that
does not start with the stored one is silently discarded, leaving the
state unchanged apart from clearing the refresh flag. -/
theorem fingerprint_update_prefix_guard (st : RdrState)
    (r : Option (List Nat)) (hlen : 0 < st.fingerprint.length) :
    st.fingerprint <+: (updateFingerprint st r).fingerprint ∧
    (∀ f, r = some f → ¬ st.fingerprint <+: f →
      updateFingerprint st r = { st with needsUpdateFP := false }) := by
  constructor
  · unfold updateFingerprint
    cases hopen : st.fileOpen with
    | false => simp
    | true =>
        cases r with
        | none => simp
        | some f =>
            simp only [hopen, Bool.not_true]
            by_cases hpre : st.fingerprint <+: f
            · have : fpStartsWith f st.fingerprint = true := by
                simpa [fpStartsWith, List.isPrefixOf_iff_prefix] using hpre
              simp [this, hpre]
            · have : fpStartsWith f st.fingerprint = false := by
                simp only [fpStartsWith]
                rw [Bool.eq_false_iff]
                intro hc
                exact hpre (( List.isPrefixOf_iff_prefix).mp hc)
              simp [this, hlen]
  · intro f hr hpre
    subst hr
    unfold updateFingerprint
    cases hopen : st.fileOpen with
    | false => simp
    | true =>
        have : fpStartsWith f st.fingerprint = false := by
          simp only [fpStartsWith]
          rw [Bool.eq_false_iff]
          intro hc
          exact hpre (( List.isPrefixOf_iff_prefix).mp hc)
        simp [hopen, this, hlen]

/-- Witness for C4: with stored fingerprint `[1, 2]` and a re-derived
fingerprint `[1, 3]` that does not extend it, the update is discarded. -/
theorem fingerprint_update_prefix_guard_witness :
    let st := { st0 with fingerprint := [1, 2] }
    st.fingerprint <+: (updateFingerprint st (some [1, 3])).fingerprint ∧
    updateFingerprint st (some [1, 3]) = { st with needsUpdateFP := false } := by
  intro st
  have h := fingerprint_update_prefix_guard st (some [1, 3]) (by decide)
  exact ⟨h.1, h.2 [1, 3] rfl (by decide)⟩

/-- Claim C9: `Validate` returns false whenever the file handle is closed;
on an open handle it returns true exactly when the fingerprint re-derived
from the current file content starts with the stored one; in particular it
returns false once the file's leading bytes no longer extend the stored
fingerprint.  (It is a pure function of the state and mutates nothing.) -/
theorem validate_characterisation (st : RdrState) (contents : List Nat)
    (fpSize : Nat) :
    (st.fileOpen = false → Validate st contents fpSize = false) ∧
    (st.fileOpen = true →
      (Validate st contents fpSize = true ↔
        st.fingerprint <+: contents.take fpSize)) ∧
    (st.fileOpen = true → ¬ st.fingerprint <+: contents.take fpSize →
      Validate st contents fpSize = false) := by
  refine ⟨fun hclosed => by simp [Validate, hclosed], fun hopen => ?_,
    fun hopen hpre => ?_⟩
  · unfold Validate
    simp only [hopen, Bool.not_true, if_false]
    by_cases hpre : st.fingerprint <+: contents.take fpSize
    · have : fpStartsWith (newFromFile contents fpSize) st.fingerprint = true := by
        simpa [fpStartsWith, newFromFile, List.isPrefixOf_iff_prefix] using hpre
      simp [this, hpre]
    · have : fpStartsWith (newFromFile contents fpSize) st.fingerprint = false := by
        simp only [fpStartsWith, newFromFile]
        rw [Bool.eq_false_iff]
        intro hc
        exact hpre (( List.isPrefixOf_iff_prefix).mp hc)
      simp [this, hpre]
  · unfold Validate
    have : fpStartsWith (newFromFile contents fpSize) st.fingerprint = false := by
      simp only [fpStartsWith, newFromFile]
      rw [Bool.eq_false_iff]
      intro hc
      exact hpre (( List.isPrefixOf_iff_prefix).mp hc)
    simp [hopen, this]

/-- Witness for C9: with stored fingerprint `[1, 2]`, a file truncated to
content `[1]` makes `Validate` return false on an open handle, and a
closed handle makes it false regardless. -/
theorem validate_characterisation_witness :
    Validate { st0 with fingerprint := [1, 2] } [1] 4 = false ∧
    Validate { st0 with fingerprint := [1, 2], fileOpen := false } [1, 2] 4
      = false := by
  constructor
  · exact (validate_characterisation { st0 with fingerprint := [1, 2] } [1] 4).2.2
      rfl (by decide)
  · exact (validate_characterisation
      { st0 with fingerprint := [1, 2], fileOpen := false } [1, 2] 4).1 rfl

/-- With a batch capacity of at least one, the content loop never makes an
out-of-range array write: it always returns a state. -/
theorem readContentsLoop_isSome (cfg : ContentCfg)
    (events : List ScanEvent) :
    ∀ (k : Nat) (tb : List (List Nat)) (toff : List Int) (n : Nat)
      (spos wstart : Int) (bpos : List Int) (st : RdrState),
      tb.length = cfg.maxBatchSize → toff.length = cfg.maxBatchSize + 1 →
      n < cfg.maxBatchSize →
      (readContentsLoop cfg k events tb toff n spos wstart bpos st).isSome := by
  induction events with
  | nil =>
      intro k tb toff n spos wstart bpos st htb htoff hn
      simp only [readContentsLoop]
      split
      · rfl
      · split <;> simp
  | cons ev rest ih =>
      intro k tb toff n spos wstart bpos st htb htoff hn
      simp only [readContentsLoop]
      by_cases hc : cfg.cancel k
      · simp [hc]
      · have hw1 : setChecked tb n (cfg.decode ev.bytes).1
            = some (tb.set n (cfg.decode ev.bytes).1) := by
          simp [setChecked, htb, hn]
        have hw2 : setChecked toff (n + 1) ev.pos
            = some (toff.set (n + 1) ev.pos) := by
          simp [setChecked, htoff, Nat.succ_lt_succ hn]
        simp only [hc, if_false, hw1, hw2]
        cases hdec : (cfg.decode ev.bytes).2 with
        | false =>
            simp only [hdec, Bool.not_false, if_true]
            exact ih _ _ _ _ _ _ _ _ (by simp [htb]) (by simp [htoff]) hn
        | true =>
            simp only [hdec, Bool.not_true, if_false]
            by_cases hfull : 0 < cfg.maxBatchSize ∧ cfg.maxBatchSize ≤ n + 1
            · simp only [hfull, if_true]
              exact ih _ _ _ _ _ _ _ _ (by simp [htb]) (by simp [htoff]) hfull.1
            · simp only [hfull, if_false]
              have : n + 1 < cfg.maxBatchSize := by
                rcases Nat.lt_or_ge (n + 1) cfg.maxBatchSize with h | h
                · exact h
                · exact absurd ⟨Nat.lt_of_le_of_lt (Nat.zero_le n) hn, h⟩ hfull
              exact ih _ _ _ _ _ _ _ _ (by simp [htb]) (by simp [htoff]) this

/-- Claim C10: with `maxBatchSize = 0` the content phase allocates a
zero-length `tokenBodies` array yet still writes each scanned token at
index `numTokensBatched`, so any input providing one complete (uncancelled)
token makes the first write out of range — a panic (`none`); with
`maxBatchSize ≥ 1` the content phase never makes an out-of-range write. -/
theorem content_zero_batch_oob :
    (∀ (cfg : ContentCfg) (ev : ScanEvent) (rest : List ScanEvent)
       (st : RdrState), cfg.cancel 0 = false → cfg.maxBatchSize = 0 →
       readContents cfg (ev :: rest) st = none) ∧
    (∀ (cfg : ContentCfg) (events : List ScanEvent) (st : RdrState),
       1 ≤ cfg.maxBatchSize → (readContents cfg events st).isSome = true) := by
  constructor
  · intro cfg ev rest st hc hmax
    simp only [readContents, hmax]
    simp only [readContentsLoop, hc, if_false, List.replicate]
    simp [setChecked]
  · intro cfg events st hmax
    refine readContentsLoop_isSome cfg events 0 _ _ 0 _ _ _ st (by simp)
      (by simp) (Nat.lt_of_lt_of_le Nat.zero_lt_one hmax)

/-- Witness for C10: a single scanned token panics with `maxBatchSize = 0`
and succeeds with `maxBatchSize = 2`. -/
theorem content_zero_batch_oob_witness :
    readContents (plainCfg 0) [⟨[1], 1⟩] st0 = none ∧
    (readContents (plainCfg 2) [⟨[1], 1⟩] st0).isSome = true :=
  ⟨content_zero_batch_oob.1 (plainCfg 0) ⟨[1], 1⟩ [] st0 rfl rfl,
   content_zero_batch_oob.2 (plainCfg 2) [⟨[1], 1⟩] st0 (by decide)⟩

/-- Claim C1 (amended): for every flush of a batch — both the full-batch
flush and the end-of-scan flush — the offset is advanced to the scanner's
current position by the step immediately after the emit call: the call
itself still observes the pre-flush offset (`offsetAtCall` is the state's
offset), and the advance happens whether or not the flush succeeded — the
sink's verdict `cfg.emitOk _` appears only in the recorded `ok` field of
the call, never in the resulting state, so a flush failure (logged, not
retried) still advances the offset past the flushed span. -/
theorem offset_advance_after_flush :
    (∀ (cfg : ContentCfg) (k : Nat) (ev : ScanEvent) (rest : List ScanEvent)
       (tb : List (List Nat)) (toff : List Int) (n : Nat)
       (spos wstart : Int) (bpos : List Int) (st : RdrState) (b : List Nat),
       cfg.cancel k = false → cfg.decode ev.bytes = (b, true) →
       n < tb.length → n + 1 < toff.length →
       0 < cfg.maxBatchSize → cfg.maxBatchSize ≤ n + 1 →
       readContentsLoop cfg k (ev :: rest) tb toff n spos wstart bpos st =
         readContentsLoop cfg (k + 1) rest (tb.set n b)
           ((toff.set (n + 1) ev.pos).set 0 ev.pos) 0 ev.pos ev.pos []
           { st with recordNum := st.recordNum + 1,
                     emits := st.emits ++
                       [⟨(tb.set n b).take (n + 1), st.attrs,
                         st.recordNum + 1, toff.set (n + 1) ev.pos,
                         cfg.emitOk st.emits.length, st.offset, ev.pos,
                         wstart, bpos ++ [ev.pos]⟩],
                     offset := ev.pos }) ∧
    (∀ (cfg : ContentCfg) (k : Nat) (tb : List (List Nat)) (toff : List Int)
       (n : Nat) (spos wstart : Int) (bpos : List Int) (st : RdrState),
       cfg.cancel k = false → 0 < n →
       readContentsLoop cfg k [] tb toff n spos wstart bpos st =
         some { atEOF cfg.scanErr cfg.deleteAtEOF st with
                emits := (atEOF cfg.scanErr cfg.deleteAtEOF st).emits ++
                  [⟨tb.take n, (atEOF cfg.scanErr cfg.deleteAtEOF st).attrs,
                    (atEOF cfg.scanErr cfg.deleteAtEOF st).recordNum, toff,
                    cfg.emitOk (atEOF cfg.scanErr cfg.deleteAtEOF st).emits.length,
                    (atEOF cfg.scanErr cfg.deleteAtEOF st).offset, spos,
                    wstart, bpos⟩],
                offset := spos }) := by
  constructor
  · intro cfg k ev rest tb toff n spos wstart bpos st b hc hdec hn hn2 h1 h2
    have hw1 : setChecked tb n b = some (tb.set n b) := by
      simp [setChecked, hn]
    have hw2 : setChecked toff (n + 1) ev.pos
        = some (toff.set (n + 1) ev.pos) := by
      simp [setChecked, hn2]
    simp only [readContentsLoop, hc, Bool.false_eq_true, if_false, hw1, hw2,
      hdec, Bool.not_true]
    simp [h1, h2]
  · intro cfg k tb toff n spos wstart bpos st hc hn
    simp only [readContentsLoop, hc, Bool.false_eq_true, if_false]
    simp [hn]

/-- Witness for C1: a single-token batch whose flush fails; the step still
advances the offset to the scanner position 4 and records the failed
call. -/
theorem offset_advance_after_flush_witness :
    (readContentsLoop cfgF 0 [⟨[7], 4⟩] [[]] [0, 0] 0 0 0 [] st0).map
      (fun s => (s.offset, s.emits.map EmitCall.ok)) = some (4, [false]) := by
  rw [offset_advance_after_flush.1 cfgF 0 ⟨[7], 4⟩ [] [[]] [0, 0] 0 0 0 [] st0
    [7] rfl rfl (by decide) (by decide) (by decide) (by decide)]
  rfl

/-- Counterexample for C1 as stated: with a sink that rejects every flush,
one token at scanner position 4 is flushed, the flush fails (`ok = false`),
and the offset nevertheless advances from 0 to 4 — past content the sink
never accepted. -/
theorem flush_failure_advances_offset_cx :
    (readContents cfgF [⟨[7], 4⟩] st0).map
      (fun s => (s.offset, s.emits.map EmitCall.ok)) = some (4, [false]) ∧
    st0.offset = 0 ∧ ((4 : Int) ≠ 0) := by
  exact ⟨by rfl, rfl, by decide⟩

/-- Claim C5: when the header sub-pipeline reports end-of-header for a
decoded token, the loop finalizes without consuming that token: the offset
is left where it was (not advanced to the token's scan position), the
sub-pipeline is stopped and discarded (`headerActive := false`),
`headerFinalized` latches true, a seek back to the offset is issued, and —
when that seek succeeds — `doneReadingFile` is false so the content phase
still runs and the first content token is not dropped. -/
theorem header_end_finalizes_without_consuming
    (cfg : HeaderCfg) (k : Nat) (ev : ScanEvent) (rest : List ScanEvent)
    (st : RdrState) (tok : List Nat) (attrs2 : AttrMap)
    (hc : cfg.cancel k = false) (hdec : cfg.decode ev.bytes = (tok, true))
    (hpr : cfg.process tok st.attrs = (.endOfHeader, attrs2)) :
    readHeaderLoop cfg k (ev :: rest) st =
      (!cfg.seekOk,
       { st with attrs := attrs2,
                 headerTokens := st.headerTokens ++ [tok],
                 headerActive := false, headerFinalized := true,
                 seeks := st.seeks ++ [st.offset] }) := by
  simp only [readHeaderLoop, hc, Bool.false_eq_true, if_false, hdec,
    Bool.not_true]
  simp only [hpr]
  cases hs : cfg.seekOk <;> simp [hs]

/-- Witness for C5: a header pipeline that signals end-of-header on the
first token finalizes with the offset still 0, the token not consumed, and
the cycle not done. -/
theorem header_end_finalizes_without_consuming_witness :
    readHeaderLoop hcE 0 [⟨[9], 7⟩] st0 =
      (false, { st0 with headerTokens := [[9]], headerActive := false,
                         headerFinalized := true, seeks := [0] }) := by
  rw [header_end_finalizes_without_consuming hcE 0 ⟨[9], 7⟩ [] st0 [9]
    st0.attrs rfl rfl rfl]
  rfl

/-- End-of-scan handling never touches the emit trace. -/
theorem atEOF_emits (a b : Bool) (st : RdrState) :
    (atEOF a b st).emits = st.emits := by
  unfold atEOF deleteFile
  split
  · rfl
  · split <;> rfl

/-- End-of-scan handling never touches the header-token trace. -/
theorem atEOF_headerTokens (a b : Bool) (st : RdrState) :
    (atEOF a b st).headerTokens = st.headerTokens := by
  unfold atEOF deleteFile
  split
  · rfl
  · split <;> rfl

/-- End-of-scan handling never touches the record count. -/
theorem atEOF_recordNum (a b : Bool) (st : RdrState) :
    (atEOF a b st).recordNum = st.recordNum := by
  unfold atEOF deleteFile
  split
  · rfl
  · split <;> rfl

/-- A successful checked write is in range and is `List.set`. -/
theorem setChecked_some {l l' : List α} {i : Nat} {a : α}
    (h : setChecked l i a = some l') : i < l.length ∧ l' = l.set i a := by
  unfold setChecked at h
  split at h
  · exact ⟨by assumption, (Option.some.inj h).symm⟩
  · cases h

/-- Every token body handed to the sink by the content loop is the
successful decode of some scan event (given that the already-pending batch
entries are). -/
theorem readContentsLoop_emits_decoded (cfg : ContentCfg)
    (E0 : List ScanEvent) :
    ∀ (events : List ScanEvent) (k : Nat) (tb : List (List Nat))
      (toff : List Int) (n : Nat) (spos wstart : Int) (bpos : List Int)
      (st st' : RdrState),
      (∀ e ∈ events, e ∈ E0) →
      (∀ b ∈ tb.take n, ∃ e ∈ E0, cfg.decode e.bytes = (b, true)) →
      readContentsLoop cfg k events tb toff n spos wstart bpos st = some st' →
      ∀ c ∈ st'.emits, c ∈ st.emits ∨
        ∀ b ∈ c.tokenBodies, ∃ e ∈ E0, cfg.decode e.bytes = (b, true) := by
  intro events
  induction events with
  | nil =>
      intro k tb toff n spos wstart bpos st st' _ hinv hrun c hc
      simp only [readContentsLoop] at hrun
      by_cases hcan : cfg.cancel k
      · simp only [hcan, if_true] at hrun
        cases hrun
        exact Or.inl hc
      · simp only [hcan, if_false] at hrun
        by_cases hn : 0 < n
        · simp only [hn, if_true] at hrun
          cases hrun
          simp only [atEOF_emits, List.mem_append, List.mem_singleton] at hc
          rcases hc with hc | hc
          · exact Or.inl hc
          · subst hc
            exact Or.inr hinv
        · simp only [hn, if_false] at hrun
          cases hrun
          rw [atEOF_emits] at hc
          exact Or.inl hc
  | cons ev rest ih =>
      intro k tb toff n spos wstart bpos st st' hmem hinv hrun c hc
      simp only [readContentsLoop] at hrun
      by_cases hcan : cfg.cancel k
      · simp only [hcan, if_true] at hrun
        cases hrun
        exact Or.inl hc
      · simp only [hcan, if_false] at hrun
        cases hset1 : setChecked tb n (cfg.decode ev.bytes).1 with
        | none => rw [hset1] at hrun; cases hrun
        | some tb1 =>
        rw [hset1] at hrun
        obtain ⟨hltb, htb1⟩ := setChecked_some hset1
        cases hset2 : setChecked toff (n + 1) ev.pos with
        | none => rw [hset2] at hrun; cases hrun
        | some toff1 =>
        rw [hset2] at hrun
        have hmem' : ∀ e ∈ rest, e ∈ E0 := fun e he => hmem e (List.mem_cons_of_mem _ he)
        cases hdec : (cfg.decode ev.bytes).2 with
        | false =>
            simp only [hdec, Bool.not_false, if_true] at hrun
            have hinv' : ∀ b ∈ tb1.take n,
                ∃ e ∈ E0, cfg.decode e.bytes = (b, true) := by
              rw [htb1, take_set_ge tb n n _ (Nat.le_refl n)]
              exact hinv
            exact ih _ _ _ _ _ _ _ _ _ hmem' hinv' hrun c hc
        | true =>
            simp only [hdec, Bool.not_true, if_false] at hrun
            have hdecEv : cfg.decode ev.bytes = ((cfg.decode ev.bytes).1, true) := by
              rw [← hdec]
            have hinvS : ∀ b ∈ tb1.take (n + 1),
                ∃ e ∈ E0, cfg.decode e.bytes = (b, true) := by
              rw [htb1, take_succ_set tb n _ hltb]
              intro b hb
              rcases List.mem_append.mp hb with hb | hb
              · exact hinv b hb
              · rw [List.mem_singleton] at hb
                subst hb
                exact ⟨ev, hmem ev (List.mem_cons_self ev rest), hdecEv⟩
            by_cases hfull : 0 < cfg.maxBatchSize ∧ cfg.maxBatchSize ≤ n + 1
            · simp only [hfull, if_true] at hrun
              have := ih _ _ _ _ _ _ _ _ _ hmem' (by simp) hrun c hc
              rcases this with hmemc | hP
              · simp only [List.mem_append, List.mem_singleton] at hmemc
                rcases hmemc with hmemc | hmemc
                · exact Or.inl hmemc
                · subst hmemc
                  exact Or.inr hinvS
              · exact Or.inr hP
            · simp only [hfull, if_false] at hrun
              exact ih _ _ _ _ _ _ _ _ _ hmem' hinvS hrun c hc

/-- Every token handed to the header sub-pipeline is the successful decode
of some scan event. -/
theorem readHeaderLoop_tokens_decoded (cfg : HeaderCfg)
    (E0 : List ScanEvent) :
    ∀ (events : List ScanEvent) (k : Nat) (st : RdrState),
      (∀ e ∈ events, e ∈ E0) →
      ∀ t ∈ (readHeaderLoop cfg k events st).2.headerTokens,
        t ∈ st.headerTokens ∨ ∃ e ∈ E0, cfg.decode e.bytes = (t, true) := by
  intro events
  induction events with
  | nil =>
      intro k st _ t ht
      simp only [readHeaderLoop] at ht
      by_cases hcan : cfg.cancel k
      · simp only [hcan, if_true] at ht
        exact Or.inl ht
      · simp only [hcan, Bool.false_eq_true, if_false, atEOF_headerTokens] at ht
        exact Or.inl ht
  | cons ev rest ih =>
      intro k st hmem t ht
      simp only [readHeaderLoop] at ht
      by_cases hcan : cfg.cancel k
      · simp only [hcan, if_true] at ht
        exact Or.inl ht
      · simp only [hcan, Bool.false_eq_true, if_false] at ht
        have hmem' : ∀ e ∈ rest, e ∈ E0 := fun e he => hmem e (List.mem_cons_of_mem _ he)
        cases hdec : (cfg.decode ev.bytes).2 with
        | false =>
            simp only [hdec, Bool.not_false, if_true] at ht
            exact ih (k + 1) { st with offset := ev.pos } hmem' t ht
        | true =>
            simp only [hdec, Bool.not_true, if_false] at ht
            have hdecEv : cfg.decode ev.bytes = ((cfg.decode ev.bytes).1, true) := by
              rw [← hdec]
            cases hpr : (cfg.process (cfg.decode ev.bytes).1 st.attrs).1 with
            | endOfHeader =>
                simp only [hpr] at ht
                have : t ∈ st.headerTokens ++ [(cfg.decode ev.bytes).1] := by
                  cases hs : cfg.seekOk <;> simp only [hs, Bool.false_eq_true, if_true, if_false] at ht <;> exact ht
                rcases List.mem_append.mp this with h | h
                · exact Or.inl h
                · rw [List.mem_singleton] at h
                  subst h
                  exact Or.inr ⟨ev, hmem ev (List.mem_cons_self ev rest), hdecEv⟩
            | ok =>
                simp only [hpr] at ht
                rcases ih _ _ hmem' t ht with h | h
                · simp only [List.mem_append, List.mem_singleton] at h
                  rcases h with h | h
                  · exact Or.inl h
                  · subst h
                    exact Or.inr ⟨ev, hmem ev (List.mem_cons_self ev rest), hdecEv⟩
                · exact Or.inr h
            | otherErr =>
                simp only [hpr] at ht
                rcases ih _ _ hmem' t ht with h | h
                · simp only [List.mem_append, List.mem_singleton] at h
                  rcases h with h | h
                  · exact Or.inl h
                  · subst h
                    exact Or.inr ⟨ev, hmem ev (List.mem_cons_self ev rest), hdecEv⟩
                · exact Or.inr h

/-- Claim C7: a token whose decode fails is skipped in both phases — the
offset advances to the scanner position past its bytes and the loop
continues on the remaining tokens with the batch (resp. the sub-pipeline
trace) untouched — and such a token is never delivered: every body handed
to the sink and every token handed to the header sub-pipeline is the
successful decode of some scan event. -/
theorem decode_failure_skips_token :
    (∀ (cfg : ContentCfg) (k : Nat) (ev : ScanEvent) (rest : List ScanEvent)
       (tb : List (List Nat)) (toff : List Int) (n : Nat)
       (spos wstart : Int) (bpos : List Int) (st : RdrState) (b : List Nat),
       cfg.cancel k = false → cfg.decode ev.bytes = (b, false) →
       n < tb.length → n + 1 < toff.length →
       readContentsLoop cfg k (ev :: rest) tb toff n spos wstart bpos st =
         readContentsLoop cfg (k + 1) rest (tb.set n b)
           (toff.set (n + 1) ev.pos) n ev.pos wstart bpos
           { st with offset := ev.pos }) ∧
    (∀ (cfg : HeaderCfg) (k : Nat) (ev : ScanEvent) (rest : List ScanEvent)
       (st : RdrState) (b : List Nat),
       cfg.cancel k = false → cfg.decode ev.bytes = (b, false) →
       readHeaderLoop cfg k (ev :: rest) st =
         readHeaderLoop cfg (k + 1) rest { st with offset := ev.pos }) ∧
    (∀ (cfg : ContentCfg) (events : List ScanEvent) (st st' : RdrState),
       readContents cfg events st = some st' →
       ∀ c ∈ st'.emits, c ∈ st.emits ∨
         ∀ b ∈ c.tokenBodies, ∃ e ∈ events, cfg.decode e.bytes = (b, true)) ∧
    (∀ (cfg : HeaderCfg) (events : List ScanEvent) (st : RdrState),
       ∀ t ∈ (readHeader cfg events st).2.headerTokens,
         t ∈ st.headerTokens ∨
           ∃ e ∈ events, cfg.decode e.bytes = (t, true)) := by
  refine ⟨?_, ?_, ?_, ?_⟩
  · intro cfg k ev rest tb toff n spos wstart bpos st b hc hdec hn hn2
    have hw1 : setChecked tb n b = some (tb.set n b) := by
      simp [setChecked, hn]
    have hw2 : setChecked toff (n + 1) ev.pos
        = some (toff.set (n + 1) ev.pos) := by
      simp [setChecked, hn2]
    simp only [readContentsLoop, hc, Bool.false_eq_true, if_false, hdec,
      hw1, hw2, Bool.not_false, if_true]
  · intro cfg k ev rest st b hc hdec
    simp only [readHeaderLoop, hc, Bool.false_eq_true, if_false, hdec,
      Bool.not_false, if_true]
  · intro cfg events st st' hrun c hc
    exact readContentsLoop_emits_decoded cfg events events 0 _ _ 0 _ _ _ st
      st' (fun e he => he) (by simp) hrun c hc
  · intro cfg events st t ht
    exact readHeaderLoop_tokens_decoded cfg events events 0 st
      (fun e he => he) t ht

/-- Witness for C7: a header token that fails to decode at scanner
position 2 is skipped — the run equals the run on the remaining (empty)
stream with the offset advanced to 2, ending with no token processed. -/
theorem decode_failure_skips_token_witness :
    readHeaderLoop cfgD 0 [⟨[3], 2⟩] st0 =
      (true, { st0 with offset := 2 }) := by
  rw [decode_failure_skips_token.2.1 cfgD 0 ⟨[3], 2⟩ [] st0 [3] rfl rfl]
  rfl

/-- Appending one emit call adds its batch size to the delivered total. -/
theorem emitSum_append_single (l : List EmitCall) (c : EmitCall) :
    emitSum (l ++ [c]) = emitSum l + c.tokenBodies.length := by
  simp [emitSum]

/-- The content loop never decreases the record count. -/
theorem readContentsLoop_recordNum_mono (cfg : ContentCfg) :
    ∀ (events : List ScanEvent) (k : Nat) (tb : List (List Nat))
      (toff : List Int) (n : Nat) (spos wstart : Int) (bpos : List Int)
      (st st' : RdrState),
      readContentsLoop cfg k events tb toff n spos wstart bpos st = some st' →
      st.recordNum ≤ st'.recordNum := by
  intro events
  induction events with
  | nil =>
      intro k tb toff n spos wstart bpos st st' hrun
      simp only [readContentsLoop] at hrun
      by_cases hcan : cfg.cancel k
      · simp only [hcan, if_true] at hrun
        cases hrun
        exact le_refl _
      · simp only [hcan, Bool.false_eq_true, if_false] at hrun
        by_cases h0 : 0 < n
        · simp only [h0, if_true] at hrun
          cases hrun
          simp [atEOF_recordNum]
        · simp only [h0, if_false] at hrun
          cases hrun
          simp [atEOF_recordNum]
  | cons ev rest ih =>
      intro k tb toff n spos wstart bpos st st' hrun
      simp only [readContentsLoop] at hrun
      by_cases hcan : cfg.cancel k
      · simp only [hcan, if_true] at hrun
        cases hrun
        exact le_refl _
      · simp only [hcan, Bool.false_eq_true, if_false] at hrun
        cases hset1 : setChecked tb n (cfg.decode ev.bytes).1 with
        | none => rw [hset1] at hrun; cases hrun
        | some tb1 =>
        rw [hset1] at hrun
        cases hset2 : setChecked toff (n + 1) ev.pos with
        | none => rw [hset2] at hrun; cases hrun
        | some toff1 =>
        rw [hset2] at hrun
        cases hdec : (cfg.decode ev.bytes).2 with
        | false =>
            simp only [hdec, Bool.not_false, if_true] at hrun
            exact ih (k + 1) tb1 toff1 n ev.pos wstart bpos
              { st with offset := ev.pos } st' hrun
        | true =>
            simp only [hdec, Bool.not_true, if_false] at hrun
            by_cases hfull : 0 < cfg.maxBatchSize ∧ cfg.maxBatchSize ≤ n + 1
            · simp only [hfull, if_true] at hrun
              have h := ih _ _ _ _ _ _ _ _ _ hrun
              simp only at h
              omega
            · simp only [hfull, if_false] at hrun
              have h := ih _ _ _ _ _ _ _ _ _ hrun
              simp only at h
              omega

/-- In an uncancelled content run, the record count grows by exactly the
number of successfully decoded tokens, all of which are passed to flush
calls (together with the batch that was already pending on entry). -/
theorem readContentsLoop_recordNum_total (cfg : ContentCfg)
    (hnc : ∀ j, cfg.cancel j = false) :
    ∀ (events : List ScanEvent) (k : Nat) (tb : List (List Nat))
      (toff : List Int) (n : Nat) (spos wstart : Int) (bpos : List Int)
      (st st' : RdrState),
      n ≤ tb.length →
      readContentsLoop cfg k events tb toff n spos wstart bpos st = some st' →
      st'.recordNum = st.recordNum +
        (events.countP (fun e => (cfg.decode e.bytes).2) : Int) ∧
      emitSum st'.emits = emitSum st.emits + n +
        events.countP (fun e => (cfg.decode e.bytes).2) := by
  intro events
  induction events with
  | nil =>
      intro k tb toff n spos wstart bpos st st' hn hrun
      simp only [readContentsLoop, hnc k, Bool.false_eq_true, if_false] at hrun
      by_cases h0 : 0 < n
      · simp only [h0, if_true] at hrun
        cases hrun
        refine ⟨by simp [atEOF_recordNum], ?_⟩
        simp only [emitSum_append_single, atEOF_emits, List.countP_nil,
          List.length_take]
        omega
      · simp only [h0, if_false] at hrun
        cases hrun
        have : n = 0 := by omega
        subst this
        exact ⟨by simp [atEOF_recordNum], by simp [atEOF_emits]⟩
  | cons ev rest ih =>
      intro k tb toff n spos wstart bpos st st' hn hrun
      simp only [readContentsLoop, hnc k, Bool.false_eq_true, if_false] at hrun
      cases hset1 : setChecked tb n (cfg.decode ev.bytes).1 with
      | none => rw [hset1] at hrun; cases hrun
      | some tb1 =>
      rw [hset1] at hrun
      obtain ⟨hltb, htb1⟩ := setChecked_some hset1
      cases hset2 : setChecked toff (n + 1) ev.pos with
      | none => rw [hset2] at hrun; cases hrun
      | some toff1 =>
      rw [hset2] at hrun
      have htb1len : tb1.length = tb.length := by rw [htb1, List.length_set]
      cases hdec : (cfg.decode ev.bytes).2 with
      | false =>
          simp only [hdec, Bool.not_false, if_true] at hrun
          have h := ih _ _ _ _ _ _ _ _ _ (by omega) hrun
          simp only at h
          refine ⟨?_, ?_⟩
          · rw [h.1]
            simp [List.countP_cons, hdec]
          · rw [h.2]
            simp [List.countP_cons, hdec]
      | true =>
          simp only [hdec, Bool.not_true, if_false] at hrun
          by_cases hfull : 0 < cfg.maxBatchSize ∧ cfg.maxBatchSize ≤ n + 1
          · simp only [hfull, if_true] at hrun
            have h := ih _ _ _ _ _ _ _ _ _ (by omega) hrun
            simp only [emitSum_append_single] at h
            have hlen : (tb1.take (n + 1)).length = n + 1 := by
              rw [List.length_take]
              omega
            simp only [hlen] at h
            have hc1 : List.countP (fun e => (cfg.decode e.bytes).2) (ev :: rest)
                = List.countP (fun e => (cfg.decode e.bytes).2) rest + 1 := by
              simp [List.countP_cons, hdec]
            refine ⟨?_, ?_⟩
            · rw [h.1, hc1]
              push_cast
              ring
            · rw [h.2, hc1]
              omega
          · simp only [hfull, if_false] at hrun
            have h := ih _ _ _ _ _ _ _ _ _ (by omega) hrun
            simp only at h
            have hc1 : List.countP (fun e => (cfg.decode e.bytes).2) (ev :: rest)
                = List.countP (fun e => (cfg.decode e.bytes).2) rest + 1 := by
              simp [List.countP_cons, hdec]
            refine ⟨?_, ?_⟩
            · rw [h.1, hc1]
              push_cast
              ring
            · rw [h.2, hc1]
              omega

/-- The header loop never changes the record count. -/
theorem readHeaderLoop_recordNum_eq (cfg : HeaderCfg) :
    ∀ (events : List ScanEvent) (k : Nat) (st : RdrState),
      ((readHeaderLoop cfg k events st).2).recordNum = st.recordNum := by
  intro events
  induction events with
  | nil =>
      intro k st
      simp only [readHeaderLoop]
      by_cases hcan : cfg.cancel k
      · simp [hcan]
      · simp [hcan, atEOF_recordNum]
  | cons ev rest ih =>
      intro k st
      simp only [readHeaderLoop]
      by_cases hcan : cfg.cancel k
      · simp [hcan]
      · simp only [hcan, Bool.false_eq_true, if_false]
        cases hdec : (cfg.decode ev.bytes).2 with
        | false =>
            simp only [hdec, Bool.not_false, if_true]
            exact ih (k + 1) { st with offset := ev.pos }
        | true =>
            simp only [hdec, Bool.not_true, if_false]
            cases hpr : (cfg.process (cfg.decode ev.bytes).1 st.attrs).1 with
            | endOfHeader =>
                simp only [hpr]
                cases hs : cfg.seekOk <;> simp [hs]
            | ok =>
                simp only [hpr]
                exact ih (k + 1) _
            | otherErr =>
                simp only [hpr]
                exact ih (k + 1) _

/-- The fingerprint refresh never changes the record count. -/
theorem updateFingerprint_recordNum (st : RdrState) (r : Option (List Nat)) :
    (updateFingerprint st r).recordNum = st.recordNum := by
  unfold updateFingerprint
  cases r with
  | none => cases hopen : st.fileOpen <;> simp [hopen]
  | some f =>
      cases hopen : st.fileOpen with
      | false => simp [hopen]
      | true =>
          simp only [hopen, Bool.not_true, Bool.false_eq_true, if_false]
          split <;> rfl

/-- Claim C8 (amended): `recordNum` counts the tokens scanned and
successfully decoded so far — incremented as each token is accepted into
the current batch, before any delivery attempt — and never decreases
across the Reader's operations (content loop, header loop, fingerprint
refresh).  In an uncancelled content run it grows by exactly the number of
decoded tokens, and all of them are passed to flush calls; a counted token
may nevertheless go undelivered when the cycle is cancelled before its
batch is flushed or when the flush fails. -/
theorem recordNum_accounting :
    (∀ (cfg : ContentCfg) (events : List ScanEvent) (k : Nat)
       (tb : List (List Nat)) (toff : List Int) (n : Nat)
       (spos wstart : Int) (bpos : List Int) (st st' : RdrState),
       readContentsLoop cfg k events tb toff n spos wstart bpos st = some st' →
       st.recordNum ≤ st'.recordNum) ∧
    (∀ (cfg : ContentCfg) (events : List ScanEvent) (st st' : RdrState),
       (∀ j, cfg.cancel j = false) →
       readContents cfg events st = some st' →
       st'.recordNum = st.recordNum +
         (events.countP (fun e => (cfg.decode e.bytes).2) : Int) ∧
       emitSum st'.emits = emitSum st.emits +
         events.countP (fun e => (cfg.decode e.bytes).2)) ∧
    (∀ (cfg : HeaderCfg) (events : List ScanEvent) (k : Nat) (st : RdrState),
       ((readHeaderLoop cfg k events st).2).recordNum = st.recordNum) ∧
    (∀ (st : RdrState) (r : Option (List Nat)),
       (updateFingerprint st r).recordNum = st.recordNum) := by
  refine ⟨?_, ?_, ?_, ?_⟩
  · intro cfg events k tb toff n spos wstart bpos st st' hrun
    exact readContentsLoop_recordNum_mono cfg events k tb toff n spos wstart
      bpos st st' hrun
  · intro cfg events st st' hnc hrun
    have h := readContentsLoop_recordNum_total cfg hnc events 0 _ _ 0 _ _ _
      st st' (by simp) hrun
    exact ⟨h.1, by rw [h.2]; ring⟩
  · intro cfg events k st
    exact readHeaderLoop_recordNum_eq cfg events k st
  · intro st r
    exact updateFingerprint_recordNum st r

/-- Witness for C8: one decodable token with no cancellation leaves the
record count at 1 (initially 0) with one delivered token. -/
theorem recordNum_accounting_witness :
    (readContents (plainCfg 1) [⟨[5], 9⟩] st0).map
      (fun s => (s.recordNum, emitSum s.emits)) = some (1, 1) := by
  obtain ⟨s, hs⟩ := Option.isSome_iff_exists.mp
    (show (readContents (plainCfg 1) [⟨[5], 9⟩] st0).isSome = true from rfl)
  have h := recordNum_accounting.2.1 (plainCfg 1) [⟨[5], 9⟩] st0 s
    (fun j => rfl) hs
  rw [hs, Option.map_some']
  rw [h.1, h.2]
  rfl

/-- Counterexample for C8 as stated: with `maxBatchSize = 2` and
cancellation arriving at the second loop iteration, one token is decoded
and counted (`recordNum` rises from 0 to 1) but the cycle returns before
any flush, so no emit call is ever made — an increment of `recordNum` with
no token delivered to the sink. -/
theorem recordNum_without_delivery_cx :
    (readContents cfgC [⟨[7], 3⟩] st0).map
      (fun s => (s.recordNum, s.emits.length)) = some (1, 0) ∧
    st0.recordNum = 0 ∧ ((1 : Int) ≠ 0) :=
  ⟨by rfl, rfl, by decide⟩

/-- Shape invariant of the `tokenOffsets` array through the content loop:
its length stays `maxBatchSize + 1`; its entry 0 is the scanner position at
the start of the current batch window (`wstart`) and entries `1..n` are the
positions after the scans whose tokens are batched (`bpos`), so every flush
call's recorded array satisfies the same description. -/
theorem readContentsLoop_toff_shape (cfg : ContentCfg) :
    ∀ (events : List ScanEvent) (k : Nat) (tb : List (List Nat))
      (toff : List Int) (n : Nat) (spos wstart : Int) (bpos : List Int)
      (st st' : RdrState),
      tb.length = cfg.maxBatchSize →
      toff.length = cfg.maxBatchSize + 1 →
      n = bpos.length →
      toff.take (n + 1) = wstart :: bpos →
      readContentsLoop cfg k events tb toff n spos wstart bpos st = some st' →
      ∀ c ∈ st'.emits, c ∈ st.emits ∨
        (c.tokenOffsets.length = cfg.maxBatchSize + 1 ∧
         c.tokenBodies.length = c.batchPos.length ∧
         c.tokenOffsets.take (c.tokenBodies.length + 1)
           = c.windowStart :: c.batchPos) := by
  intro events
  induction events with
  | nil =>
      intro k tb toff n spos wstart bpos st st' htb htoff hbp hinv hrun c hc
      simp only [readContentsLoop] at hrun
      by_cases hcan : cfg.cancel k
      · simp only [hcan, if_true] at hrun
        cases hrun
        exact Or.inl hc
      · simp only [hcan, Bool.false_eq_true, if_false] at hrun
        by_cases h0 : 0 < n
        · simp only [h0, if_true] at hrun
          cases hrun
          simp only [atEOF_emits, List.mem_append, List.mem_singleton] at hc
          rcases hc with hc | hc
          · exact Or.inl hc
          · subst hc
            refine Or.inr ⟨htoff, ?_, ?_⟩
            · simp only [List.length_take]
              have hnle : n ≤ tb.length := by
                by_contra hgt
                push_neg at hgt
                have : toff.take (n + 1) ≠ wstart :: bpos := by
                  intro he
                  have := congrArg List.length he
                  simp only [List.length_take, List.length_cons, htoff,
                    ← hbp] at this
                  omega
                exact this hinv
              omega
            · simp only [List.length_take]
              have hn1 : n + 1 ≤ toff.length := by
                have := congrArg List.length hinv
                simp only [List.length_take, List.length_cons, ← hbp] at this
                omega
              have hmin : min n tb.length + 1 = n + 1 := by
                have hnle : n ≤ tb.length := by
                  by_contra hgt
                  push_neg at hgt
                  have := congrArg List.length hinv
                  simp only [List.length_take, List.length_cons, htoff,
                    ← hbp] at this
                  omega
                omega
              rw [hmin, hinv]
        · simp only [h0, if_false] at hrun
          cases hrun
          rw [atEOF_emits] at hc
          exact Or.inl hc
  | cons ev rest ih =>
      intro k tb toff n spos wstart bpos st st' htb htoff hbp hinv hrun c hc
      simp only [readContentsLoop] at hrun
      by_cases hcan : cfg.cancel k
      · simp only [hcan, if_true] at hrun
        cases hrun
        exact Or.inl hc
      · simp only [hcan, Bool.false_eq_true, if_false] at hrun
        cases hset1 : setChecked tb n (cfg.decode ev.bytes).1 with
        | none => rw [hset1] at hrun; cases hrun
        | some tb1 =>
        rw [hset1] at hrun
        obtain ⟨hltb, htb1⟩ := setChecked_some hset1
        cases hset2 : setChecked toff (n + 1) ev.pos with
        | none => rw [hset2] at hrun; cases hrun
        | some toff1 =>
        rw [hset2] at hrun
        obtain ⟨hltoff, htoff1⟩ := setChecked_some hset2
        have htb1len : tb1.length = cfg.maxBatchSize := by
          rw [htb1, List.length_set, htb]
        have htoff1len : toff1.length = cfg.maxBatchSize + 1 := by
          rw [htoff1, List.length_set, htoff]
        have hinv1 : toff1.take (n + 1) = wstart :: bpos := by
          rw [htoff1, take_set_ge toff (n + 1) (n + 1) _ (Nat.le_refl _)]
          exact hinv
        have hinvS : toff1.take (n + 2) = wstart :: (bpos ++ [ev.pos]) := by
          rw [htoff1, take_succ_set toff (n + 1) _ hltoff, hinv,
            List.cons_append]
        cases hdec : (cfg.decode ev.bytes).2 with
        | false =>
            simp only [hdec, Bool.not_false, if_true] at hrun
            exact ih _ _ _ _ _ _ _ _ _ htb1len htoff1len hbp hinv1 hrun c hc
        | true =>
            simp only [hdec, Bool.not_true, if_false] at hrun
            have hbpS : n + 1 = (bpos ++ [ev.pos]).length := by
              simp [← hbp]
            have hlen1 : (tb1.take (n + 1)).length = n + 1 := by
              rw [List.length_take]
              have : n + 1 ≤ tb1.length := by rw [htb1len, ← htb]; omega
              omega
            by_cases hfull : 0 < cfg.maxBatchSize ∧ cfg.maxBatchSize ≤ n + 1
            · simp only [hfull, if_true] at hrun
              have hinv0 : (toff1.set 0 ev.pos).take 1 = ev.pos :: [] := by
                have h0lt : 0 < toff1.length := by rw [htoff1len]; omega
                rw [take_succ_set toff1 0 _ h0lt]
                simp
              have := ih (k + 1) tb1 (toff1.set 0 ev.pos) 0 ev.pos ev.pos []
                _ st' htb1len (by rw [List.length_set, htoff1len]) rfl hinv0
                hrun c hc
              rcases this with hmemc | hP
              · simp only [List.mem_append, List.mem_singleton] at hmemc
                rcases hmemc with hmemc | hmemc
                · exact Or.inl hmemc
                · subst hmemc
                  refine Or.inr ⟨htoff1len, ?_, ?_⟩
                  · simp only [hlen1]
                    exact hbpS
                  · simp only [hlen1]
                    exact hinvS
              · exact Or.inr hP
            · simp only [hfull, if_false] at hrun
              exact ih _ _ _ _ _ _ _ _ _ htb1len htoff1len hbpS hinvS hrun c hc

/-- Claim C2 (amended): every flush call receives a `tokenOffsets` array of
length `maxBatchSize + 1` (not `len(tokenBodies) + 1`: the array is passed
whole, so a final partial batch sees trailing stale entries); its first
`len(tokenBodies) + 1` entries are meaningful: entry 0 is the scanner
position at the start of the batch window (the offset after the previous
flush, or the initial offset — which precedes the first *batched* token
when undecodable tokens were skipped in between) and entry `i + 1` is the
scanner position immediately after the scan that yielded batch element
`i`. -/
theorem tokenOffsets_shape :
    ∀ (cfg : ContentCfg) (events : List ScanEvent) (st st' : RdrState),
      readContents cfg events st = some st' →
      ∀ c ∈ st'.emits, c ∈ st.emits ∨
        (c.tokenOffsets.length = cfg.maxBatchSize + 1 ∧
         c.tokenBodies.length = c.batchPos.length ∧
         c.tokenOffsets.take (c.tokenBodies.length + 1)
           = c.windowStart :: c.batchPos) := by
  intro cfg events st st' hrun c hc
  refine readContentsLoop_toff_shape cfg events 0
    (List.replicate cfg.maxBatchSize [])
    ((List.replicate (cfg.maxBatchSize + 1) (0 : Int)).set 0 st.offset) 0
    st.offset st.offset [] st st' (by simp) (by simp) rfl ?_ hrun c hc
  have h0lt : 0 < (List.replicate (cfg.maxBatchSize + 1) (0 : Int)).length := by
    simp
  rw [take_succ_set _ 0 _ h0lt]
  simp

/-- Counterexample for C2 as stated: with `maxBatchSize = 2` and a single
available token, the final flush passes one token body but a `tokenOffsets`
array of length 3 — not `len(tokenBodies) + 1 = 2`. -/
theorem tokenOffsets_length_cx :
    (readContents (plainCfg 2) [⟨[9], 3⟩] st0).map
      (fun s => s.emits.map
        (fun c => (c.tokenBodies.length, c.tokenOffsets.length)))
      = some [(1, 3)] ∧ (3 ≠ 1 + 1) :=
  ⟨by rfl, by decide⟩

/-- Witness for C2: the flush call of that run satisfies the amended
shape — length `maxBatchSize + 1 = 3`, and meaningful prefix
`[0, 3] = windowStart :: batchPos`. -/
theorem tokenOffsets_shape_witness :
    cRec.tokenOffsets.length = (plainCfg 2).maxBatchSize + 1 ∧
    cRec.tokenBodies.length = cRec.batchPos.length ∧
    cRec.tokenOffsets.take (cRec.tokenBodies.length + 1)
      = cRec.windowStart :: cRec.batchPos := by
  have h := tokenOffsets_shape (plainCfg 2) [⟨[9], 3⟩] st0 stRec (by rfl)
    cRec (by simp [stRec])
  exact h.resolve_left (by simp [st0])

/-- Claim C3: on the gzip path (compression `"gzip"`, or `"auto"` with
detected file type `".gz"`), once the decompressing reader is successfully
created (lock acquired, `Stat` returned size `s`, `gzip.NewReader`
succeeded), every normally-returning exit of `ReadToEnd` leaves the offset
equal to the raw on-disk size `s` captured at the start of the cycle —
whatever the seek outcome, header phase, content phase and fingerprint
refresh did in between. -/
theorem gzip_offset_pinned_to_eof
    (rc : ReadCfg) (hc : HeaderCfg) (hevents : List ScanEvent)
    (cc : ContentCfg) (cevents : List ScanEvent) (st : RdrState)
    (s : Int) (st' : RdrState)
    (hlock : rc.acquireFSLock = false ∨ rc.lockOk = true)
    (hgz : gzipSelected rc = true)
    (hstat : rc.statSize = some s) (hok : rc.gzipOk = true)
    (hrun : ReadToEnd rc hc hevents cc cevents st = some st') :
    st'.offset = s := by
  unfold ReadToEnd at hrun
  have hlockF : (rc.acquireFSLock && !rc.lockOk) = false := by
    rcases hlock with h | h <;> simp [h]
  simp only [hlockF, Bool.false_eq_true, if_false, hgz, if_true] at hrun
  rw [hstat] at hrun
  simp only [hok, if_true] at hrun
  obtain ⟨x, _, hmap⟩ := Option.map_eq_some'.mp hrun
  simp [← hmap]

/-- Witness for C3: a gzip cycle over an empty decompressed stream with
on-disk size 5 ends with offset 5. -/
theorem gzip_offset_pinned_to_eof_witness :
    (ReadToEnd rcG hcE [] (plainCfg 1) [] st0).map RdrState.offset
      = some 5 := by
  obtain ⟨s1, hs⟩ := Option.isSome_iff_exists.mp
    (show (ReadToEnd rcG hcE [] (plainCfg 1) [] st0).isSome = true from rfl)
  have h := gzip_offset_pinned_to_eof rcG hcE [] (plainCfg 1) [] st0 5 s1
    (Or.inl rfl) rfl rfl rfl hs
  rw [hs, Option.map_some', h]
